import Mathlib

/-!
# Shallow embedding of the SimpleRaft / SurfStore replicated metadata server

This file embeds the consensus core of the repository — `src/state.py`
(`State.majority`, `Candidate.elect_leader`, `Leader.append_entry`),
`src/server.py` (`requestVote`, `appendEntries`, `__check_term`,
`updatefile`, `getfileinfomap`) and `src/surfstore.py`
(`SurfStore.updatefile`, `SurfStore.getfileinfomap`) — as executable Lean
definitions, and proves the specification claims about them.

Conventions:
* Python ints that are always non-negative in the protocol (terms, log
  indices, counts) are `Nat`; file versions are `Int`; the wire replies
  carry `Int` because a crashed/busy replica answers `-1`.
* A Python exception (a failed `assert`, an `IndexError`, a `raise`) is
  `none` in an `Option` result.
* The per-replica consensus lock is the `lockHeld` field of `Replica`:
  an RPC handler whose non-blocking acquisition fails answers `(-1, false)`;
  a handler that returns without releasing leaves `lockHeld := true`.
-/

/-- Block hashes (SHA-256 digests in the source) are modeled as strings. -/
abbrev BlockHash := String

/-- A replicated command: the `(filename, version, blockHashList)` argument
triple of `updatefile`, which is all the server stores in its log. -/
abbrev Cmd := String × Int × List BlockHash

/-- A log entry `(term, cmd)` as stored in `SurfstoreServer.logs`. -/
abbrev Entry := Nat × Cmd

/-- The map `SurfStore.file_infos`: an insertion-ordered Python dict from
filename to `(version, blockHashList)`, modeled as an association list. -/
abbrev FileInfoMap := List (String × Int × List BlockHash)

/-- Lookup in the file-info map (Python `file_infos[filename]` /
`filename in file_infos`). -/
def lookupFI : FileInfoMap → String → Option (Int × List BlockHash)
  | [], _ => none
  | (g, vi) :: rest, f => if g = f then some vi else lookupFI rest f

/-- Assignment `file_infos[filename] = [version, blocklist]`: replace the
binding in place, or append a new one. -/
def setFI : FileInfoMap → String → Int × List BlockHash → FileInfoMap
  | [], f, vi => [(f, vi)]
  | (g, w) :: rest, f, vi =>
      if g = f then (f, vi) :: rest else (g, w) :: setFI rest f vi

/-- `SurfStore.updatefile` from `surfstore.py`.  Returns `some (b, m')` for a
normal return of `b` with resulting map `m'`; returns `none` when the Python
assertion "Version of file creation must be one" fails (creation with a
version other than 1). -/
def updatefile (m : FileInfoMap) (filename : String) (version : Int)
    (blocklist : List BlockHash) : Option (Bool × FileInfoMap) :=
  match lookupFI m filename with
  | some (v, _) =>
      if version ≠ v + 1 then some (false, m)
      else some (true, setFI m filename (version, blocklist))
  | none =>
      if version ≠ 1 then none
      else some (true, setFI m filename (version, blocklist))

/-- `State.majority` from `state.py`: `self.server.num_servers // 2 + 1`. -/
def majority (numServers : Nat) : Nat := numServers / 2 + 1

/-- Outcome of one round of `Candidate.elect_leader` after the votes are in. -/
inductive ElectOutcome
  | becomeLeader
  | stepDown
  | retry
  deriving DecidableEq

/-- Decision at the end of one `Candidate.elect_leader` round in `state.py`:
`if votes >= self.majority` transit to Leader; `elif latest_term >
self.current_term` revert to Follower; else wait and retry. -/
def electLeaderOutcome (votes maj latestTerm currentTerm : Nat) : ElectOutcome :=
  if maj ≤ votes then ElectOutcome.becomeLeader
  else if currentTerm < latestTerm then ElectOutcome.stepDown
  else ElectOutcome.retry

/-- Helper: first-match lookup after `setFI` finds the new binding. -/
theorem lookupFI_setFI (m : FileInfoMap) (f : String) (vi : Int × List BlockHash) :
    lookupFI (setFI m f vi) f = some vi := by
  induction m with
  | nil => simp [setFI, lookupFI]
  | cons hd tl ih =>
      obtain ⟨g, w⟩ := hd
      by_cases hg : g = f
      · simp [setFI, hg, lookupFI]
      · simp [setFI, hg, lookupFI, ih]

/-- C1 (counterexample): for `N = 3` the code's majority threshold
`State.majority = 3 // 2 + 1 = 2` differs from the claimed `⌈N/2⌉ + 1 = 3`,
and a candidate holding 2 votes transitions to Leader even though
`2 < ⌈3/2⌉ + 1`. -/
theorem c1_counterexample :
    majority 3 = 2 ∧ (3 + 1) / 2 + 1 = 3 ∧ majority 3 ≠ (3 + 1) / 2 + 1 ∧
    electLeaderOutcome 2 (majority 3) 1 1 = ElectOutcome.becomeLeader ∧
    (2 : Nat) < (3 + 1) / 2 + 1 := by decide

/-- C1 (amended): the majority threshold used by the consensus core is
`⌊N/2⌋ + 1`, and a Candidate transitions to Leader exactly when its vote
count (own vote included) reaches `⌊N/2⌋ + 1`. -/
theorem c1_majority_floor (numServers votes latestTerm currentTerm : Nat) :
    majority numServers = numServers / 2 + 1 ∧
    (electLeaderOutcome votes (majority numServers) latestTerm currentTerm =
        ElectOutcome.becomeLeader ↔ numServers / 2 + 1 ≤ votes) := by
  refine ⟨rfl, ?_⟩
  constructor
  · intro h
    by_contra hv
    have hnv : ¬ majority numServers ≤ votes := by unfold majority; omega
    unfold electLeaderOutcome at h
    rw [if_neg hnv] at h
    split at h <;> exact ElectOutcome.noConfusion h
  · intro h
    have hle : majority numServers ≤ votes := by unfold majority; omega
    unfold electLeaderOutcome
    rw [if_pos hle]

/-- C1 (witness): with three replicas, two votes elect a leader. -/
theorem c1_witness :
    electLeaderOutcome 2 (majority 3) 0 1 = ElectOutcome.becomeLeader :=
  (c1_majority_floor 3 2 0 1).2.mpr (by decide)

/-- C5: `updatefile` on an existing file with a non-successor version returns
`false` and leaves the map unchanged (a version conflict is a `false` return,
not an exception); with the successor version, or on creation with version 1,
it stores `name → (version, blockHashList)` and returns `true`; creation with
a version other than 1 is a fatal assertion failure, not a `false` return. -/
theorem c5_updatefile_cases (m : FileInfoMap) (f : String) (v : Int)
    (bl : List BlockHash) :
    (∀ w bl0, lookupFI m f = some (w, bl0) → v ≠ w + 1 →
        updatefile m f v bl = some (false, m)) ∧
    (∀ w bl0, lookupFI m f = some (w, bl0) → v = w + 1 →
        updatefile m f v bl = some (true, setFI m f (v, bl)) ∧
        lookupFI (setFI m f (v, bl)) f = some (v, bl)) ∧
    (lookupFI m f = none → v = 1 →
        updatefile m f v bl = some (true, setFI m f (v, bl)) ∧
        lookupFI (setFI m f (v, bl)) f = some (v, bl)) ∧
    (lookupFI m f = none → v ≠ 1 → updatefile m f v bl = none) := by
  refine ⟨?_, ?_, ?_, ?_⟩
  · intro w bl0 hw hv
    simp [updatefile, hw, hv]
  · intro w bl0 hw hv
    exact ⟨by simp [updatefile, hw, hv], lookupFI_setFI m f (v, bl)⟩
  · intro hn hv
    exact ⟨by simp [updatefile, hn, hv], lookupFI_setFI m f (v, bl)⟩
  · intro hn hv
    simp [updatefile, hn, hv]

/-- C5 (witness): updating `"a"` from version 1 straight to 3 is a `false`
no-op. -/
theorem c5_witness :
    updatefile [("a", (1, ["h"]))] "a" 3 ["g"] = some (false, [("a", (1, ["h"]))]) :=
  (c5_updatefile_cases [("a", (1, ["h"]))] "a" 3 ["g"]).1 1 ["h"] rfl (by decide)

/-- The role of `SurfstoreServer.state`: `Follower`, `Candidate` or `Leader`
(`none` models `state = None`, the crashed server). -/
inductive Role
  | follower
  | candidate
  | leader
  deriving DecidableEq

/-- The consensus-relevant mutable state of one `SurfstoreServer`. -/
structure Replica where
  currentTerm : Nat
  votedFor : Option Nat
  logs : List Entry
  commitIndex : Nat
  lastApplied : Nat
  fileInfos : FileInfoMap
  numServers : Nat
  numUp : Nat
  isCrashed : Bool
  role : Option Role
  lockHeld : Bool
  deriving DecidableEq

/-- `SurfstoreServer.__check_term`: reject a stale term; on a strictly higher
term adopt it, clear `voted_for` and revert to Follower. -/
def checkTerm (s : Replica) (term : Nat) : Bool × Replica :=
  if term < s.currentTerm then (false, s)
  else if s.currentTerm < term then
    (true, { s with currentTerm := term, votedFor := none, role := some Role.follower })
  else (true, s)

/-- The receiver's last log term: `self.logs[-1][0] if self.logs else 0`. -/
def lastLogTerm (logs : List Entry) : Nat :=
  match logs.getLast? with
  | some e => e.1
  | none => 0

/-- Python tuple comparison `(a, b) <= (c, d)`: lexicographic order. -/
abbrev pairLe (a b c d : Nat) : Prop := a < c ∨ (a = c ∧ b ≤ d)

/-- `SurfstoreServer.requestVote`.  The reply is `(-1, false)` when the
non-blocking lock acquisition fails or the server is crashed; otherwise the
term check runs, and the vote is granted iff `voted_for` permits it and the
candidate's `(log_term, log_index)` is at least the receiver's
`(last log term, log length)` under Python tuple order.  The granted path
records the candidate in `voted_for`; every path releases the lock. -/
def requestVote (s : Replica) (term candidateId logIndex logTerm : Nat) :
    (Int × Bool) × Replica :=
  if s.lockHeld then ((-1, false), s)
  else if s.isCrashed then ((-1, false), s)
  else
    match checkTerm s term with
    | (false, s1) => (((s1.currentTerm : Int), false), s1)
    | (true, s1) =>
        let granted := decide ((s1.votedFor = none ∨ s1.votedFor = some candidateId) ∧
          pairLe (lastLogTerm s1.logs) s1.logs.length logTerm logIndex)
        (((term : Int), granted),
          if granted then { s1 with votedFor := some candidateId } else s1)

/-- C4: for a RequestVote whose term is at least the receiver's current term
(receiver not crashed, lock free), the vote is granted iff `voted_for` — after
the reset that a strictly higher term causes — is null or the candidate, and
the candidate's `(lastTerm, lastIndex)` is lexicographically at least the
receiver's; on grant `voted_for` records the candidate; the reply's first
component equals the receiver's (possibly updated) current term. -/
theorem c4_requestVote_grant (s : Replica) (term candidateId logIndex logTerm : Nat)
    (hl : s.lockHeld = false) (hc : s.isCrashed = false) (ht : s.currentTerm ≤ term) :
    ((requestVote s term candidateId logIndex logTerm).1.2 = true ↔
      (((if s.currentTerm < term then none else s.votedFor) = none ∨
        (if s.currentTerm < term then none else s.votedFor) = some candidateId) ∧
       pairLe (lastLogTerm s.logs) s.logs.length logTerm logIndex)) ∧
    ((requestVote s term candidateId logIndex logTerm).1.2 = true →
      (requestVote s term candidateId logIndex logTerm).2.votedFor = some candidateId) ∧
    (requestVote s term candidateId logIndex logTerm).1.1 =
      ((requestVote s term candidateId logIndex logTerm).2.currentTerm : Int) := by
  have hnt : ¬ term < s.currentTerm := Nat.not_lt.mpr ht
  by_cases hlt : s.currentTerm < term
  · simp only [requestVote, checkTerm, hl, hc, if_pos hlt, if_neg hnt,
      Bool.false_eq_true, if_false]
    refine ⟨?_, ?_, ?_⟩
    · simp [hlt, decide_eq_true_iff]
    · intro hg
      simp only [decide_eq_true_iff] at hg ⊢
      simp [hg]
    · split <;> simp
  · have heq : s.currentTerm = term := by omega
    simp only [requestVote, checkTerm, hl, hc, if_neg hlt, if_neg hnt,
      Bool.false_eq_true, if_false]
    refine ⟨?_, ?_, ?_⟩
    · simp [hlt, decide_eq_true_iff]
    · intro hg
      simp only [decide_eq_true_iff] at hg ⊢
      simp [hg]
    · split <;> simp [heq]

/-- A freshly restored replica: term 0, empty log, Follower, lock free. -/
def freshFollower : Replica :=
  { currentTerm := 0, votedFor := none, logs := [], commitIndex := 0, lastApplied := 0,
    fileInfos := [], numServers := 3, numUp := 1, isCrashed := false,
    role := some Role.follower, lockHeld := false }

/-- C4 (witness): a fresh follower grants a vote to candidate 2 at term 1. -/
theorem c4_witness : (requestVote freshFollower 1 2 0 0).1.2 = true := by
  have h := c4_requestVote_grant freshFollower 1 2 0 0 rfl rfl (by decide)
  exact h.1.mpr (by decide)

/-- Zero-based list indexing, `l[i]` in Python (`none` when out of range). -/
def nth {α : Type} : List α → Nat → Option α
  | [], _ => none
  | a :: _, 0 => some a
  | _ :: l, n + 1 => nth l n

/-- The conflict-detection loop of `appendEntries`:
`for index, entry in enumerate(entries, prev_index): if index < len(logs) and
logs[index][0] != entry[0]: del logs[index:]; break`.  Returns the possibly
truncated log. -/
def conflictScan (logs : List Entry) : List Entry → Nat → List Entry
  | [], _ => logs
  | e :: rest, i =>
      if i < logs.length ∧ ¬ (nth logs i).map Prod.fst = some e.1 then logs.take i
      else conflictScan logs rest (i + 1)

/-- Net effect of the conflict loop followed by the wholesale suffix
assignment `self.logs[prev_index:] = entries`. -/
def reconcileLogs (logs : List Entry) (prevIndex : Nat) (entries : List Entry) :
    List Entry :=
  (conflictScan logs entries prevIndex).take prevIndex ++ entries

/-- The apply loop of `appendEntries`:
`for idx in range(last_applied, commit_index): updatefile(*logs[idx][1])`,
run for `k` iterations starting at `idx`.  `none` models a Python exception
(a missing log entry or the updatefile creation assert). -/
def applyLoop (logs : List Entry) : FileInfoMap → Nat → Nat → Option FileInfoMap
  | m, _, 0 => some m
  | m, idx, k + 1 =>
      match nth logs idx with
      | none => none
      | some e =>
          match updatefile m e.2.1 e.2.2.1 e.2.2.2 with
          | none => none
          | some (_, m') => applyLoop logs m' (idx + 1) k

/-- Tail of `appendEntries` after the log reconciliation: raise
`commit_index` to `min(leader_commit, len(logs))` when the leader's commit is
ahead, apply the newly committed commands, advance `last_applied`, release the
lock and reply `(current term, True)`. -/
def commitAndApply (s : Replica) (leaderCommit : Nat) :
    Option ((Int × Bool) × Replica) :=
  let ci := if s.commitIndex < leaderCommit then min leaderCommit s.logs.length
            else s.commitIndex
  if s.lastApplied < ci then
    match applyLoop s.logs s.fileInfos s.lastApplied (ci - s.lastApplied) with
    | none => none
    | some m' =>
        some (((s.currentTerm : Int), true),
          { s with commitIndex := ci, lastApplied := ci, fileInfos := m' })
  else some (((s.currentTerm : Int), true), { s with commitIndex := ci })

/-- `SurfstoreServer.appendEntries`.  Busy or crashed replicas answer
`(-1, false)` untouched.  After the term check, a non-empty `entries` is
subjected to the prev-index/prev-term consistency check — whose failure path
in the source returns `(current_term, False)` WITHOUT releasing the lock
(modeled by `lockHeld := true`) — and then reconciled into the log; an empty
`entries` skips both.  Finally the commit index is updated and newly
committed commands are applied. -/
def appendEntries (s : Replica) (term prevIndex prevTerm : Nat)
    (entries : List Entry) (leaderCommit : Nat) :
    Option ((Int × Bool) × Replica) :=
  if s.lockHeld then some ((-1, false), s)
  else if s.isCrashed then some ((-1, false), s)
  else
    match checkTerm s term with
    | (false, s1) => some (((s1.currentTerm : Int), false), s1)
    | (true, s1) =>
        if entries = [] then commitAndApply s1 leaderCommit
        else
          if s1.logs.length < prevIndex ∨
              (0 < prevIndex ∧
                ¬ (nth s1.logs (prevIndex - 1)).map Prod.fst = some prevTerm) then
            some (((s1.currentTerm : Int), false), { s1 with lockHeld := true })
          else
            commitAndApply
              { s1 with logs := reconcileLogs s1.logs prevIndex entries } leaderCommit

/-- C2 (counterexample): a pure heartbeat (`entries = []`) whose
`prevIndex = 3` exceeds the fresh follower's empty log — so the claim's
mismatch condition holds and predicts a `false` reply — is answered
`(current term, true)`: the source only runs the consistency check inside
`if entries:`. -/
theorem c2_counterexample :
    0 < 3 ∧ freshFollower.logs.length < 3 ∧ freshFollower.currentTerm ≤ 1 ∧
    (appendEntries freshFollower 1 3 1 [] 0).map Prod.fst = some (1, true) := by
  decide

/-- C6 (code bug): starting from a freshly restored follower, an
AppendEntries at term 1 with two entries and `leaderCommit = 2` commits and
applies both; a second AppendEntries at term 2 whose single entry conflicts
at index 0 rewrites the log wholesale to length 1 while `commitIndex` stays
2 — leaving `commitIndex > len(logs)`, which violates the claimed invariant
`LastApplied ≤ CommitIndex ≤ len(Log)`. -/
theorem c6_commit_exceeds_log :
    (((appendEntries freshFollower 1 0 0
          [(1, ("a", 1, ["h1"])), (1, ("a", 2, ["h2"]))] 2).bind fun r =>
        appendEntries r.2 2 0 0 [(2, ("b", 1, ["h3"]))] 0).map
      fun r => (r.1, r.2.commitIndex, r.2.logs.length,
        decide (r.2.commitIndex ≤ r.2.logs.length))) =
      some ((2, true), 2, 1, false) := by decide

/-- C10 (code bug): an AppendEntries whose non-empty `entries` fails the
prev-index consistency check returns `(current term, false)` without
releasing the consensus lock, and the very next AppendEntries — here a
well-formed heartbeat — is bounced with `(-1, false)` because the
non-blocking acquisition now always fails. -/
theorem c10_lock_leak :
    (appendEntries freshFollower 1 5 1 [(1, ("a", 1, ["h"]))] 0).map
        (fun r => (r.1, r.2.lockHeld)) = some ((1, false), true) ∧
    ((appendEntries freshFollower 1 5 1 [(1, ("a", 1, ["h"]))] 0).bind fun r =>
        appendEntries r.2 1 0 0 [] 0).map Prod.fst = some (-1, false) := by
  decide

/-- Helper: when the incoming term is at least the receiver's, the term
check succeeds and only `currentTerm`, `votedFor` and `role` can change. -/
theorem checkTerm_ge (s : Replica) (term : Nat) (ht : s.currentTerm ≤ term) :
    ∃ s1, checkTerm s term = (true, s1) ∧ s1.logs = s.logs ∧ s1.currentTerm = term ∧
      s1.commitIndex = s.commitIndex ∧ s1.lastApplied = s.lastApplied ∧
      s1.lockHeld = s.lockHeld ∧ s1.isCrashed = s.isCrashed ∧ s1.fileInfos = s.fileInfos := by
  unfold checkTerm
  rw [if_neg (Nat.not_lt.mpr ht)]
  by_cases hlt : s.currentTerm < term
  · rw [if_pos hlt]
    exact ⟨_, rfl, rfl, rfl, rfl, rfl, rfl, rfl, rfl⟩
  · rw [if_neg hlt]
    exact ⟨s, rfl, rfl, by omega, rfl, rfl, rfl, rfl, rfl⟩

/-- C2 (amended): for a term-valid AppendEntries with a NON-EMPTY payload, a
prev-index/prev-term mismatch is answered `(current term, false)` with the
log untouched; an empty payload (pure heartbeat) skips the consistency check
entirely, and â when there is nothing new to commit or apply â is answered
`(current term, true)`, again with the log untouched. -/
theorem c2_mismatch (s : Replica) (term prevIndex prevTerm leaderCommit : Nat)
    (entries : List Entry) (hl : s.lockHeld = false) (hc : s.isCrashed = false)
    (ht : s.currentTerm ≤ term) :
    (entries ≠ [] → 0 < prevIndex →
      (s.logs.length < prevIndex ∨
        ¬ (nth s.logs (prevIndex - 1)).map Prod.fst = some prevTerm) →
      ∃ s', appendEntries s term prevIndex prevTerm entries leaderCommit =
              some (((term : Int), false), s') ∧
            s'.logs = s.logs ∧ s'.currentTerm = term) ∧
    (entries = [] → leaderCommit ≤ s.commitIndex → s.commitIndex ≤ s.lastApplied →
      ∃ s', appendEntries s term prevIndex prevTerm entries leaderCommit =
              some (((term : Int), true), s') ∧
            s'.logs = s.logs ∧ s'.currentTerm = term) := by
  obtain ⟨s1, hct, hlogs, hterm, hci, hla1, hlk, hcr, hfi⟩ := checkTerm_ge s term ht
  constructor
  · intro hne hpos hmis
    refine ⟨{ s1 with lockHeld := true }, ?_, by simp [hlogs], by simp [hterm]⟩
    have hcond : s1.logs.length < prevIndex ∨
        (0 < prevIndex ∧ ¬ (nth s1.logs (prevIndex - 1)).map Prod.fst = some prevTerm) := by
      rw [hlogs]
      rcases hmis with h | h
      · exact Or.inl h
      · exact Or.inr ⟨hpos, h⟩
    simp only [appendEntries, hl, hc, Bool.false_eq_true, if_false, hct]
    rw [if_neg hne, if_pos hcond, hterm]
  · intro hemp hlc hla
    subst hemp
    refine ⟨s1, ?_, hlogs, hterm⟩
    simp only [appendEntries, hl, hc, Bool.false_eq_true, if_false, hct, if_true]
    simp only [commitAndApply]
    have h1 : ¬ s1.commitIndex < leaderCommit := by omega
    have h2 : ¬ s1.lastApplied < s1.commitIndex := by omega
    rw [if_neg h1, if_neg h2, ← hterm]

/-- C2 (witness): a fresh follower rejects a non-empty AppendEntries whose
`prevIndex = 2` points past its empty log, leaving the log unchanged. -/
theorem c2_witness :
    ∃ s', appendEntries freshFollower 1 2 1 [(1, ("a", 1, ["h"]))] 0 =
            some ((1, false), s') ∧
          s'.logs = freshFollower.logs ∧ s'.currentTerm = 1 :=
  (c2_mismatch freshFollower 1 2 1 0 [(1, ("a", 1, ["h"]))] rfl rfl (by decide)).1
    (by decide) (by decide) (Or.inl (by decide))

/-- Classical AppendEntries reconciliation of the log suffix past
`prevIndex` against the sent entries, modeled from the spec's words: walk in
parallel; at the first position whose terms conflict, truncate everything
from that position onward and append the remaining new entries; entries
already present (same term) are kept; existing entries beyond the sent ones
are preserved. -/
def classicalReconcile : List Entry → List Entry → List Entry
  | logs, [] => logs
  | [], entries => entries
  | l :: logs, e :: entries =>
      if l.1 ≠ e.1 then e :: entries
      else l :: classicalReconcile logs entries

/-- The classical rule applied to a full receiver log at `prevIndex`. -/
def classicalAppend (logs : List Entry) (prevIndex : Nat) (entries : List Entry) :
    List Entry :=
  logs.take prevIndex ++ classicalReconcile (logs.drop prevIndex) entries

/-- Helper: the conflict loop only ever cuts at or after the start index, so
taking the first `p ≤ i` elements ignores whatever it did. -/
theorem conflictScan_take (logs : List Entry) :
    ∀ (entries : List Entry) (i p : Nat), p ≤ i →
      (conflictScan logs entries i).take p = logs.take p := by
  intro entries
  induction entries with
  | nil => intro i p _; rfl
  | cons e rest ih =>
      intro i p hpi
      unfold conflictScan
      split
      · rw [List.take_take, Nat.min_eq_left hpi]
      · exact ih (i + 1) p (by omega)

/-- Helper: the conflict loop followed by the suffix assignment always yields
`logs.take prevIndex ++ entries`, whatever the loop truncated. -/
theorem reconcileLogs_eq (logs : List Entry) (prevIndex : Nat) (entries : List Entry) :
    reconcileLogs logs prevIndex entries = logs.take prevIndex ++ entries := by
  unfold reconcileLogs
  rw [conflictScan_take logs entries prevIndex prevIndex (le_refl _)]

/-- Helper: the classical rule returns exactly the sent entries when the
receiver's suffix is no longer than the payload and same-term positions in
the overlap carry identical entries. -/
theorem classicalReconcile_of_le :
    ∀ (ls es : List Entry), ls.length ≤ es.length →
      (∀ i l e, nth ls i = some l → nth es i = some e → l.1 = e.1 → l = e) →
      classicalReconcile ls es = es := by
  intro ls
  induction ls with
  | nil =>
      intro es _ _
      cases es <;> rfl
  | cons l ls ih =>
      intro es hlen hsame
      cases es with
      | nil => simp at hlen
      | cons e es' =>
          unfold classicalReconcile
          by_cases hterm : l.1 ≠ e.1
          · rw [if_pos hterm]
          · rw [if_neg hterm]
            push_neg at hterm
            have hle : l = e := hsame 0 l e rfl rfl hterm
            rw [hle, ih es' (by simpa using hlen)
              (fun i a b ha hb hab => hsame (i + 1) a b ha hb hab)]

/-- C8 (counterexample): with receiver log `[(1,a1), (1,a2)]`, `prevIndex = 0`
and sent entries `[(1,a1)]` — no term conflict anywhere — the code's
loop-plus-wholesale-assignment drops the existing entry `(1,a2)` beyond the
sent ones, while the classical rule preserves it. -/
theorem c8_counterexample :
    reconcileLogs [(1, ("a", 1, ["h1"])), (1, ("a", 2, ["h2"]))] 0
        [(1, ("a", 1, ["h1"]))] ≠
      classicalAppend [(1, ("a", 1, ["h1"])), (1, ("a", 2, ["h2"]))] 0
        [(1, ("a", 1, ["h1"]))] := by decide

/-- C8 (amended): the conflict-detection loop followed by
`logs[prev_index:] = entries` always produces `Log[1..prevIndex] ++ entries`;
this agrees with the classical conflict-truncate-then-append rule whenever
the sent entries reach at least to the end of the receiver's log and entries
at overlapping same-term positions are identical — but in general the
wholesale assignment drops non-conflicting existing entries beyond the sent
ones, which the classical rule preserves. -/
theorem c8_reconcile (logs : List Entry) (prevIndex : Nat) (entries : List Entry) :
    reconcileLogs logs prevIndex entries = logs.take prevIndex ++ entries ∧
    (logs.length ≤ prevIndex + entries.length →
      (∀ i l e, nth (logs.drop prevIndex) i = some l → nth entries i = some e →
        l.1 = e.1 → l = e) →
      reconcileLogs logs prevIndex entries = classicalAppend logs prevIndex entries) := by
  refine ⟨reconcileLogs_eq logs prevIndex entries, ?_⟩
  intro hlen hsame
  rw [reconcileLogs_eq, classicalAppend,
    classicalReconcile_of_le (logs.drop prevIndex) entries ?_ hsame]
  rw [List.length_drop]
  omega

/-- C8 (witness): on an empty receiver log the two reconciliations agree. -/
theorem c8_witness :
    reconcileLogs [] 0 [(1, ("a", 1, ["h"]))] =
      classicalAppend [] 0 [(1, ("a", 1, ["h"]))] :=
  (c8_reconcile [] 0 [(1, ("a", 1, ["h"]))]).2 (by decide)
    (fun i l e hl _ _ => by simp [nth] at hl)

/-- Python `max(match_indexes.values())` (over a non-empty list). -/
def listMax : List Nat → Nat
  | [] => 0
  | x :: l => max x (listMax l)

/-- The `reduce` in `Leader.append_entry`: the number of peers whose
match index is at least `m`. -/
def countGe : List Nat → Nat → Nat
  | [], _ => 0
  | x :: l, m => (if m ≤ x then 1 else 0) + countGe l m

/-- The commit-advance loop of `Leader.append_entry`:
`for follower_commit in range(max(match_indexes), commit_index, -1)`, stop at
the first index replicated on `majority - 1` peers whose entry is of the
current term.  `none` models the Python IndexError of
`logs[follower_commit - 1]` when the scanned index exceeds the log. -/
def commitScan (mi : List Nat) (logs : List Entry) (currentTerm maj commitIndex : Nat) :
    Nat → Option Nat
  | 0 => some commitIndex
  | fc + 1 =>
      if fc + 1 ≤ commitIndex then some commitIndex
      else if maj - 1 ≤ countGe mi (fc + 1) then
        match nth logs fc with
        | none => none
        | some e =>
            if e.1 = currentTerm then some (fc + 1)
            else commitScan mi logs currentTerm maj commitIndex fc
      else commitScan mi logs currentTerm maj commitIndex fc

/-- One commit-advance pass of `Leader.append_entry`, returning the new
commit index.  `none` for the Python `max()` of an empty sequence. -/
def advanceCommit (mi : List Nat) (logs : List Entry)
    (currentTerm maj commitIndex : Nat) : Option Nat :=
  match mi with
  | [] => none
  | _ => commitScan mi logs currentTerm maj commitIndex (listMax mi)

/-- The claim's commit condition on an index `M`: above the old commit index,
the entry at `M` (1-indexed) is of the current term, and the count of peers
matching at least `M`, plus the leader itself, reaches the majority. -/
def commitOK (mi : List Nat) (logs : List Entry)
    (currentTerm maj commitIndex M : Nat) : Prop :=
  commitIndex < M ∧ (nth logs (M - 1)).map Prod.fst = some currentTerm ∧
    maj ≤ countGe mi M + 1

/-- Helper: members bound the running maximum. -/
theorem le_listMax {x : Nat} : ∀ {l : List Nat}, x ∈ l → x ≤ listMax l := by
  intro l
  induction l with
  | nil => intro h; cases h
  | cons y l ih =>
      intro h
      unfold listMax
      rcases List.mem_cons.mp h with h1 | h2
      · subst h1; exact le_max_left _ _
      · exact le_trans (ih h2) (le_max_right _ _)

/-- Helper: a positive count exhibits a member at least `m`. -/
theorem countGe_pos : ∀ (mi : List Nat) (m : Nat), 1 ≤ countGe mi m →
    ∃ x ∈ mi, m ≤ x := by
  intro mi
  induction mi with
  | nil => intro m h; simp [countGe] at h
  | cons x l ih =>
      intro m h
      by_cases hx : m ≤ x
      · exact ⟨x, List.mem_cons_self x l, hx⟩
      · simp only [countGe, hx, if_false, Nat.zero_add] at h
        obtain ⟨y, hy, hmy⟩ := ih m h
        exact ⟨y, List.mem_cons_of_mem x hy, hmy⟩

/-- Helper: within-bounds indexing yields a value. -/
theorem nth_of_lt {α : Type} : ∀ (l : List α) (i : Nat), i < l.length →
    ∃ a, nth l i = some a := by
  intro l
  induction l with
  | nil => intro i h; simp at h
  | cons a l ih =>
      intro i h
      cases i with
      | zero => exact ⟨a, rfl⟩
      | succ n => exact ih n (by simp at h; omega)

/-- Helper: correctness of the downward commit scan.  If no commit candidate
lies above the start index, the scan terminates normally and returns either
the unchanged commit index (when no candidate exists at all) or the highest
candidate. -/
theorem commitScan_spec (mi : List Nat) (logs : List Entry) (ct maj ci : Nat)
    (hmaj : 2 ≤ maj) (hlen : ∀ x ∈ mi, x ≤ logs.length) :
    ∀ fc, (∀ M, commitOK mi logs ct maj ci M → M ≤ fc) →
      ∃ r, commitScan mi logs ct maj ci fc = some r ∧
        (∀ M, commitOK mi logs ct maj ci M → M ≤ r) ∧
        (r = ci ∨ commitOK mi logs ct maj ci r) := by
  intro fc
  induction fc with
  | zero =>
      intro hinv
      refine ⟨ci, rfl, ?_, Or.inl rfl⟩
      intro M hM
      have h1 := hinv M hM
      have h2 := hM.1
      omega
  | succ fc ih =>
      intro hinv
      unfold commitScan
      by_cases h1 : fc + 1 ≤ ci
      · rw [if_pos h1]
        refine ⟨ci, rfl, ?_, Or.inl rfl⟩
        intro M hM
        have h2 := hinv M hM
        have h3 := hM.1
        omega
      · rw [if_neg h1]
        by_cases h2 : maj - 1 ≤ countGe mi (fc + 1)
        · rw [if_pos h2]
          have hc1 : 1 ≤ countGe mi (fc + 1) := by omega
          obtain ⟨x, hxm, hxge⟩ := countGe_pos mi (fc + 1) hc1
          have hfc : fc < logs.length := by
            have h3 := hlen x hxm
            omega
          obtain ⟨e, he⟩ := nth_of_lt logs fc hfc
          simp only [he]
          by_cases h3 : e.1 = ct
          · rw [if_pos h3]
            refine ⟨fc + 1, rfl, hinv, Or.inr ⟨by omega, ?_, by omega⟩⟩
            simp [Nat.add_sub_cancel, he, h3]
          · rw [if_neg h3]
            apply ih
            intro M hM
            have hMle := hinv M hM
            rcases Nat.lt_or_ge M (fc + 1) with hlt | hge
            · omega
            · exfalso
              have hMeq : M = fc + 1 := by omega
              subst hMeq
              have h4 := hM.2.1
              rw [Nat.add_sub_cancel, he] at h4
              simp at h4
              exact h3 h4
        · rw [if_neg h2]
          apply ih
          intro M hM
          have hMle := hinv M hM
          rcases Nat.lt_or_ge M (fc + 1) with hlt | hge
          · omega
          · exfalso
            have hMeq : M = fc + 1 := by omega
            subst hMeq
            have h5 := hM.2.2
            omega

/-- C3: in a Leader replication round with at least two servers, peers whose
match indexes are within the log, and a non-empty peer set, the commit
advance returns normally and yields the highest index `M` with
`M > commitIndex`, `Log[M].term = currentTerm` and
`count(matchIndex ≥ M) + 1 ≥ majority`; when no such `M` exists, the commit
index is unchanged. -/
theorem c3_advance_commit (mi : List Nat) (logs : List Entry)
    (ct ci numServers : Nat) (hmi : mi ≠ [])
    (hlen : ∀ x ∈ mi, x ≤ logs.length) (hN : 2 ≤ numServers) :
    ∃ r, advanceCommit mi logs ct (majority numServers) ci = some r ∧
      (∀ M, commitOK mi logs ct (majority numServers) ci M → M ≤ r) ∧
      (r = ci ∨ commitOK mi logs ct (majority numServers) ci r) := by
  have hmaj : 2 ≤ majority numServers := by
    have h1 : 1 ≤ numServers / 2 := (Nat.one_le_div_iff (by omega)).mpr hN
    unfold majority
    omega
  have hspec := commitScan_spec mi logs ct (majority numServers) ci hmaj hlen
    (listMax mi) ?_
  · obtain ⟨r, hr, hmax, hcase⟩ := hspec
    refine ⟨r, ?_, hmax, hcase⟩
    cases mi with
    | nil => exact absurd rfl hmi
    | cons x l => exact hr
  · intro M hM
    have hc : 1 ≤ countGe mi M := by
      have h1 := hM.2.2
      omega
    obtain ⟨x, hxm, hxge⟩ := countGe_pos mi M hc
    exact le_trans hxge (le_listMax hxm)

/-- C3 (witness): one entry of the current term matched by one of two peers
is committed under `majority 3 = 2`. -/
theorem c3_witness :
    ∃ r, advanceCommit [1, 0] [(1, ("a", 1, ["h"]))] 1 (majority 3) 0 = some r ∧
      (∀ M, commitOK [1, 0] [(1, ("a", 1, ["h"]))] 1 (majority 3) 0 M → M ≤ r) ∧
      (r = 0 ∨ commitOK [1, 0] [(1, ("a", 1, ["h"]))] 1 (majority 3) 0 r) :=
  c3_advance_commit [1, 0] [(1, ("a", 1, ["h"]))] 1 0 3 (by decide) (by decide)
    (by decide)

/-- Result of a client-facing call: a normal return, the
`Exception("isCrashed or is not Leader")` raise, or an unbounded spin of the
read path waiting for a majority to be reachable. -/
inductive ClientResult (α : Type)
  | ok (a : α)
  | notLeader
  | blocked
  deriving DecidableEq

/-- `SurfstoreServer.isLeader`: `isinstance(self.state, Leader)`. -/
def isLeader (s : Replica) : Bool := decide (s.role = some Role.leader)

/-- `SurfstoreServer.getfileinfomap`: spin while leader and fewer than a
majority of servers were reachable in the last replication round (modeled as
`blocked`), then return the map snapshot if still leader, else raise. -/
def getfileinfomap (s : Replica) : ClientResult FileInfoMap :=
  if isLeader s then
    if s.numUp < majority s.numServers then ClientResult.blocked
    else ClientResult.ok s.fileInfos
  else ClientResult.notLeader

/-- `SurfstoreServer.updatefile`, the leader write path: append
`(current_term, (filename, version, blocklist))` to the log, wait until the
commit index reaches the pending index, set `last_applied` and apply the
command to the store, returning its boolean.  The inter-thread wait for
`commit_index >= pending_index` is modeled as having completed (the commit
index is raised to the pending index), which is the only case in which the
call returns instead of raising; a non-leader raises (`notLeader`); a failed
creation assert inside the apply is `none`. -/
def serverUpdatefile (s : Replica) (filename : String) (version : Int)
    (blocklist : List BlockHash) : Option (ClientResult Bool × Replica) :=
  if isLeader s then
    let s1 := { s with logs := s.logs ++ [(s.currentTerm, (filename, version, blocklist))] }
    let pending := s1.logs.length
    let s2 := { s1 with commitIndex := max s1.commitIndex pending, lastApplied := pending }
    match updatefile s2.fileInfos filename version blocklist with
    | none => none
    | some (b, m') => some (ClientResult.ok b, { s2 with fileInfos := m' })
  else some (ClientResult.notLeader, s)

/-- C7: a crashed (Down) replica answers RequestVote and AppendEntries with
`(-1, false)` and mutates nothing — in particular neither term, log, nor
vote — and its UpdateFile and GetFileInfoMap raise the not-leader error
instead of returning a value. -/
theorem c7_down_semantics (s : Replica) (hcr : s.isCrashed = true)
    (hrole : s.role = none) :
    (∀ term cid li lt, requestVote s term cid li lt = ((-1, false), s)) ∧
    (∀ term p pt entries lc,
      appendEntries s term p pt entries lc = some ((-1, false), s)) ∧
    (∀ f v bl, serverUpdatefile s f v bl = some (ClientResult.notLeader, s)) ∧
    getfileinfomap s = ClientResult.notLeader := by
  refine ⟨?_, ?_, ?_, ?_⟩
  · intro term cid li lt
    unfold requestVote
    by_cases hl : s.lockHeld <;> simp [hl, hcr]
  · intro term p pt entries lc
    unfold appendEntries
    by_cases hl : s.lockHeld <;> simp [hl, hcr]
  · intro f v bl
    simp [serverUpdatefile, isLeader, hrole]
  · simp [getfileinfomap, isLeader, hrole]

/-- A crashed replica with some residual state, for the C7 witness. -/
def downReplica : Replica :=
  { currentTerm := 4, votedFor := some 2, logs := [(1, ("a", 1, ["h"]))],
    commitIndex := 1, lastApplied := 1, fileInfos := [("a", (1, ["h"]))],
    numServers := 3, numUp := 1, isCrashed := true, role := none,
    lockHeld := false }

/-- C7 (witness): the crashed replica rejects a vote request untouched and
refuses the read. -/
theorem c7_witness :
    requestVote downReplica 9 1 5 5 = ((-1, false), downReplica) ∧
    getfileinfomap downReplica = ClientResult.notLeader := by
  have h := c7_down_semantics downReplica rfl rfl
  exact ⟨h.1 9 1 5 5, h.2.2.2⟩

/-- Helper: a `true` return of `updatefile` stored the new version and list. -/
theorem updatefile_true_lookup (m : FileInfoMap) (f : String) (v : Int)
    (bl : List BlockHash) (m' : FileInfoMap)
    (h : updatefile m f v bl = some (true, m')) :
    lookupFI m' f = some (v, bl) := by
  unfold updatefile at h
  cases hl : lookupFI m f with
  | some p =>
      obtain ⟨w, bl0⟩ := p
      rw [hl] at h
      by_cases hv : v = w + 1
      · simp only [hv] at h
        simp at h
        rw [← h]
        rw [← hv]
        exact lookupFI_setFI m f (v, bl)
      · simp [hv] at h
  | none =>
      rw [hl] at h
      by_cases hv : v = (1 : Int)
      · simp only [hv] at h
        simp at h
        rw [← h, ← hv]
        exact lookupFI_setFI m f (v, bl)
      · simp [hv] at h

/-- Helper: a `false` return of `updatefile` left the map unchanged. -/
theorem updatefile_false_map (m : FileInfoMap) (f : String) (v : Int)
    (bl : List BlockHash) (m' : FileInfoMap)
    (h : updatefile m f v bl = some (false, m')) : m' = m := by
  unfold updatefile at h
  cases hl : lookupFI m f with
  | some p =>
      obtain ⟨w, bl0⟩ := p
      rw [hl] at h
      by_cases hv : v = w + 1
      · simp [hv] at h
      · simp [hv] at h
        exact h.symm
  | none =>
      rw [hl] at h
      by_cases hv : v = (1 : Int)
      · simp [hv] at h
      · simp [hv] at h

/-- A leader already holding `"a" → (1, ["h"])`, for the C9 counterexample. -/
def c9Leader : Replica :=
  { currentTerm := 1, votedFor := some 0, logs := [(1, ("a", 1, ["h"]))],
    commitIndex := 1, lastApplied := 1, fileInfos := [("a", (1, ["h"]))],
    numServers := 3, numUp := 3, isCrashed := false, role := some Role.leader,
    lockHeld := false }

/-- C9 (counterexample): on a leader whose map already holds
`"a" → (1, ["h"])`, `UpdateFile("a", 1, ["h"])` returns `false`, yet the
following `GetFileInfoMap` still contains `"a" → (1, ["h"])` — the
"only if" direction of the claimed equivalence fails. -/
theorem c9_counterexample :
    (serverUpdatefile c9Leader "a" 1 ["h"]).map
        (fun r => (r.1, getfileinfomap r.2, lookupFI r.2.fileInfos "a")) =
      some (ClientResult.ok false, ClientResult.ok [("a", (1, ["h"]))],
        some (1, ["h"])) := by rfl

/-- C9 (amended): on a leader that a majority can reach, if
`UpdateFile(f, v, B)` returns `true` then `GetFileInfoMap` on the same
leader returns its map and that map contains `f → (v, B)`; if it returns
`false` the map is unchanged from before the call (so it contains
`f → (v, B)` only if that binding already existed). -/
theorem c9_update_get (s : Replica) (f : String) (v : Int) (bl : List BlockHash)
    (b : Bool) (s' : Replica) (hup : majority s.numServers ≤ s.numUp)
    (h : serverUpdatefile s f v bl = some (ClientResult.ok b, s')) :
    (b = true → getfileinfomap s' = ClientResult.ok s'.fileInfos ∧
      lookupFI s'.fileInfos f = some (v, bl)) ∧
    (b = false → s'.fileInfos = s.fileInfos) := by
  by_cases hld : isLeader s
  · simp only [serverUpdatefile, hld, if_true] at h
    cases hu : updatefile s.fileInfos f v bl with
    | none => rw [hu] at h; exact Option.noConfusion h
    | some p =>
        obtain ⟨b', m'⟩ := p
        simp only [hu] at h
        simp only [Option.some_inj, Prod.mk.injEq] at h
        obtain ⟨hb, hs⟩ := h
        have hb' : b' = b := ClientResult.ok.inj hb
        constructor
        · intro hbt
          subst hbt
          subst hb'
          refine ⟨?_, ?_⟩
          · rw [← hs]
            simp only [getfileinfomap, isLeader] at hld ⊢
            simp only [hld, if_true]
            have hnu : ¬ s.numUp < majority s.numServers := by omega
            simp [hnu]
          · rw [← hs]
            exact updatefile_true_lookup s.fileInfos f v bl m' hu
        · intro hbf
          subst hbf
          subst hb'
          rw [← hs]
          exact updatefile_false_map s.fileInfos f v bl m' hu
  · simp [serverUpdatefile, hld] at h

/-- A fresh leader with an empty map and log, for the C9 witness. -/
def c9FreshLeader : Replica :=
  { currentTerm := 1, votedFor := some 0, logs := [], commitIndex := 0,
    lastApplied := 0, fileInfos := [], numServers := 3, numUp := 3,
    isCrashed := false, role := some Role.leader, lockHeld := false }

/-- The state of `c9FreshLeader` after `UpdateFile("a", 1, ["h"])`. -/
def c9AfterLeader : Replica :=
  { currentTerm := 1, votedFor := some 0, logs := [(1, ("a", 1, ["h"]))],
    commitIndex := 1, lastApplied := 1, fileInfos := [("a", (1, ["h"]))],
    numServers := 3, numUp := 3, isCrashed := false, role := some Role.leader,
    lockHeld := false }

/-- C9 (witness): a successful creation is visible through the read path. -/
theorem c9_witness :
    getfileinfomap c9AfterLeader = ClientResult.ok c9AfterLeader.fileInfos ∧
    lookupFI c9AfterLeader.fileInfos "a" = some (1, ["h"]) :=
  (c9_update_get c9FreshLeader "a" 1 ["h"] true c9AfterLeader (by decide)
    (by decide)).1 rfl
